import Mathlib

/-!
Verification of the static-site build pipeline in `scripts/build.js`.

Strings of the JavaScript source are modelled as `List Char` (called `Str`
below), so that every string operation of the source is an explicit,
executable Lean function. Each section embeds one group of source
functions, followed by the theorems about them.
-/

set_option maxHeartbeats 1000000

abbrev Str := List Char

/-! ### Generic string helpers shared by several source functions -/

/-- Split a character list at every character satisfying `p`
(the model of splitting a JavaScript string on single characters). -/
def splitOnP (p : Char → Bool) : Str → List Str
  | [] => [[]]
  | c :: cs =>
    let r := splitOnP p cs
    if p c then [] :: r
    else
      match r with
      | [] => [[c]]
      | h :: t => (c :: h) :: t

/-- Substring test, the model of JavaScript `String.prototype.includes`. -/
def hasSub (t : Str) : Str → Bool
  | [] => decide (t = [])
  | c :: s => t.isPrefixOf (c :: s) || hasSub t s

/-- Split at the first occurrence of `sep`: the text before it and the
text after it. -/
def splitFirstSub (sep : Str) : Str → Option (Str × Str)
  | [] => if sep = [] then some ([], []) else none
  | c :: s =>
    if sep.isPrefixOf (c :: s) then some ([], List.drop sep.length (c :: s))
    else
      match splitFirstSub sep s with
      | some ba => some (c :: ba.1, ba.2)
      | none => none

/-- The `GetSubstitution` expansion that `String.prototype.replace`
applies to a string replacement: `$$` is a dollar sign, `$&` the matched
text, `$`-backquote the part of the input before the match, `$'` the
part after it; any other `$` sequence (there are no capture groups for a
string pattern) stays literal. -/
def getSubstitution (matched before after : Str) : Str → Str
  | [] => []
  | ['$'] => ['$']
  | '$' :: c :: rest =>
    if c == '$' then '$' :: getSubstitution matched before after rest
    else if c == '&' then matched ++ getSubstitution matched before after rest
    else if c == Char.ofNat 96 then before ++ getSubstitution matched before after rest
    else if c == '\'' then after ++ getSubstitution matched before after rest
    else '$' :: c :: getSubstitution matched before after rest
  | c :: rest => c :: getSubstitution matched before after rest

/-- Model of JavaScript `String.prototype.replace` with a plain-string
pattern: the first occurrence of `t` is replaced by `r` expanded through
`GetSubstitution`. -/
def replaceFirst (t r s : Str) : Str :=
  match splitFirstSub t s with
  | some ba => ba.1 ++ getSubstitution t ba.1 ba.2 r ++ ba.2
  | none => s

/-- Append `x` unless already present: one `Set.prototype.add` step of a
JavaScript `Set` kept in insertion order. -/
def addUnique (l : List Str) (x : Str) : List Str :=
  if l.contains x then l else l ++ [x]

/-- Deduplicate keeping first occurrences: the model of `new Set(array)`
followed by `Array.from`. -/
def dedup (l : List Str) : List Str :=
  l.foldl addUnique []

/-- Whitespace class of JavaScript's `\s` (the code points relevant here). -/
def jsWs (c : Char) : Bool :=
  c == ' ' || c == '\t' || c == '\n' || c == '\r' ||
  c == '\x0b' || c == '\x0c' || c == '\u00A0' || c == '\uFEFF'

/-- JavaScript `\w` word-character class. -/
def isWordChar (c : Char) : Bool :=
  (('a' ≤ c && c ≤ 'z') || ('A' ≤ c && c ≤ 'Z')) || c.isDigit || c == '_'

/-- JavaScript `String.prototype.trim` (for the whitespace used here). -/
def trimStr (s : Str) : Str :=
  ((s.dropWhile jsWs).reverse.dropWhile jsWs).reverse

/-- Join a token list with single spaces, the model of `Array.prototype.join(" ")`. -/
def joinSp (l : List Str) : Str :=
  List.intercalate [' '] l

/-! ### `parsePostFilename` (build.js lines 120-131) and the
per-file validators used before it (lines 106-118). -/

/-- Character class `[a-z0-9-]` of the slug check in `parsePostFilename`. -/
def isSlugChar (c : Char) : Bool :=
  ('a' ≤ c && c ≤ 'z') || ('0' ≤ c && c ≤ '9') || c == '-'

/-- Complement of the line-terminator class that JavaScript's `.` never
matches. -/
def notLineTerm (c : Char) : Bool :=
  !(c == '\n' || c == '\r' || c == '\u2028' || c == '\u2029')

/-- The capture of `(.+)\.md$`: everything before the trailing `.md`,
which must be nonempty and (because `.` does not match line terminators)
free of newline characters. -/
def stripDotMd (rest : Str) : Option Str :=
  if 4 ≤ rest.length && List.drop (rest.length - 3) rest == ['.', 'm', 'd'] &&
      (List.take (rest.length - 3) rest).all notLineTerm then
    some (List.take (rest.length - 3) rest)
  else none

structure PostName where
  yyyy : Str
  mm : Str
  dd : Str
  slug : Str
  date : Str
deriving Repr, DecidableEq

/-- Model of `parsePostFilename`: match `^(\d{4})-(\d{2})-(\d{2})~(.+)\.md$`,
then require the slug to match `^[a-z0-9-]+$`. -/
def parsePostFilename : Str → Option PostName
  | y1 :: y2 :: y3 :: y4 :: h1 :: m1 :: m2 :: h2 :: d1 :: d2 :: t :: rest =>
    if y1.isDigit && y2.isDigit && y3.isDigit && y4.isDigit && h1 == '-' &&
        m1.isDigit && m2.isDigit && h2 == '-' && d1.isDigit && d2.isDigit && t == '~' then
      match stripDotMd rest with
      | some slug =>
        if slug.all isSlugChar then
          some { yyyy := [y1, y2, y3, y4], mm := [m1, m2], dd := [d1, d2], slug := slug,
                 date := [y1, y2, y3, y4] ++ '-' :: [m1, m2] ++ '-' :: [d1, d2] }
        else none
      | none => none
    else none
  | _ => none

/-- Model of `isValidFilename` (lines 106-112). -/
def isValidFilename (f : Str) : Bool :=
  if hasSub "..".data f || f.contains '/' || f.contains '\\' then false
  else decide (f ≠ []) && f.all (fun c => isWordChar c || c == '-' || c == '.' || c == '~')

/-- Model of `isValidCategory` (lines 115-118). -/
def isValidCategory (c : Str) : Bool :=
  (decide (c ≠ []) &&
    c.all (fun ch => ('a' ≤ ch && ch ≤ 'z') || ch.isDigit || ch == '-' || ch == '_')) &&
  !hasSub "..".data c

/-- The per-file selection steps of `main` that decide, from the relative
path split into segments, whether a post file is considered at all
(lines 387-406): at least two segments, valid category (first segment),
valid filename (last segment), and a filename accepted by
`parsePostFilename`. -/
def partsCategory (parts : List Str) : Str := parts.headD []

def partsFilename (parts : List Str) : Str := parts.getLastD []

def selectPost (parts : List Str) : Option (Str × PostName) :=
  if parts.length < 2 then none
  else if !isValidCategory (partsCategory parts) then none
  else if !isValidFilename (partsFilename parts) then none
  else
    match parsePostFilename (partsFilename parts) with
    | some n => some (partsCategory parts, n)
    | none => none

/-- The property claimed of accepted filenames: shape
`YYYY-MM-DD~slug.md` with four/two/two digits and a nonempty slug over
`[a-z0-9-]`. -/
def PostPatternHolds (f : Str) : Prop :=
  ∃ y m d slug : Str,
    f = y ++ '-' :: m ++ '-' :: d ++ '~' :: (slug ++ ".md".data) ∧
    y.length = 4 ∧ m.length = 2 ∧ d.length = 2 ∧
    (∀ c ∈ y ++ m ++ d, c.isDigit = true) ∧
    slug ≠ [] ∧ (∀ c ∈ slug, isSlugChar c = true)

theorem length_eq_four_iff {α : Type} (l : List α) :
    l.length = 4 ↔ ∃ a b c d : α, l = [a, b, c, d] := by
  constructor
  · intro h
    match l, h with
    | [a, b, c, d], _ => exact ⟨a, b, c, d, rfl⟩
  · rintro ⟨a, b, c, d, rfl⟩; rfl

theorem length_eq_two_iff {α : Type} (l : List α) :
    l.length = 2 ↔ ∃ a b : α, l = [a, b] := by
  constructor
  · intro h
    match l, h with
    | [a, b], _ => exact ⟨a, b, rfl⟩
  · rintro ⟨a, b, rfl⟩; rfl

theorem stripDotMd_append (slug : Str) (h : slug ≠ [])
    (hnl : slug.all notLineTerm = true) :
    stripDotMd (slug ++ ".md".data) = some slug := by
  have hmd : ".md".data = ['.', 'm', 'd'] := rfl
  have h1 : 0 < slug.length := List.length_pos.mpr h
  have hlen : (slug ++ ".md".data).length = slug.length + 3 := by simp
  have hsl : (slug ++ ".md".data).length - 3 = slug.length := by omega
  have h4 : 4 ≤ (slug ++ ".md".data).length := by omega
  have hdrop : List.drop ((slug ++ ".md".data).length - 3) (slug ++ ".md".data)
      = ['.', 'm', 'd'] := by
    rw [hsl, ← hmd]; exact List.drop_left slug ".md".data
  have htake : List.take ((slug ++ ".md".data).length - 3) (slug ++ ".md".data) = slug := by
    rw [hsl]; exact List.take_left slug ".md".data
  simp [stripDotMd, htake, hdrop, h4, hnl, h]

theorem stripDotMd_eq_some {rest slug : Str} (h : stripDotMd rest = some slug) :
    rest = slug ++ ".md".data ∧ slug ≠ [] := by
  have hmd : ".md".data = ['.', 'm', 'd'] := rfl
  unfold stripDotMd at h
  split at h
  case isTrue hcond =>
    simp only [Bool.and_eq_true, decide_eq_true_eq, beq_iff_eq] at hcond
    obtain ⟨⟨h4, hdrop⟩, -⟩ := hcond
    have hslug : slug = List.take (rest.length - 3) rest := (Option.some.inj h).symm
    subst hslug
    constructor
    · conv_lhs => rw [← List.take_append_drop (rest.length - 3) rest]
      rw [hdrop, hmd]
    · intro hnil
      have := congrArg List.length hnil
      simp [List.length_take] at this
      omega
  case isFalse => exact Option.noConfusion h

theorem isSlugChar_notLineTerm {c : Char} (h : isSlugChar c = true) : notLineTerm c = true := by
  simp only [isSlugChar, Bool.or_eq_true, Bool.and_eq_true, decide_eq_true_eq,
    beq_iff_eq] at h
  by_contra hc
  rw [Bool.not_eq_true] at hc
  simp only [notLineTerm, Bool.not_eq_false', Bool.or_eq_true, beq_iff_eq] at hc
  have hc' : c = '\n' ∨ c = '\r' ∨ c = ' ' ∨ c = ' ' := by tauto
  have h' : ('a' ≤ c ∧ c ≤ 'z') ∨ ('0' ≤ c ∧ c ≤ '9') ∨ c = '-' := by tauto
  rcases hc' with rfl | rfl | rfl | rfl <;>
    rcases h' with ⟨h1, h2⟩ | ⟨h1, h2⟩ | h1 <;>
    first
      | exact absurd h1 (by decide)
      | exact absurd h2 (by decide)

theorem parsePostFilename_isSome_iff (f : Str) :
    (parsePostFilename f).isSome = true ↔ PostPatternHolds f := by
  constructor
  · intro h
    match f with
    | y1 :: y2 :: y3 :: y4 :: h1 :: m1 :: m2 :: h2 :: d1 :: d2 :: t :: rest =>
      simp only [parsePostFilename] at h
      split at h
      case isTrue hcond =>
        simp only [Bool.and_eq_true, beq_iff_eq] at hcond
        obtain ⟨⟨⟨⟨⟨⟨⟨⟨⟨⟨hy1, hy2⟩, hy3⟩, hy4⟩, hh1⟩, hm1⟩, hm2⟩, hh2⟩, hd1⟩, hd2⟩, ht⟩ := hcond
        split at h
        next slug hsd =>
          obtain ⟨hrest, hne⟩ := stripDotMd_eq_some hsd
          split at h
          next hall =>
            subst hh1; subst hh2; subst ht; subst hrest
            refine ⟨[y1, y2, y3, y4], [m1, m2], [d1, d2], slug, rfl, rfl, rfl, rfl, ?_, hne, ?_⟩
            · intro c hc
              have hflat : c = y1 ∨ c = y2 ∨ c = y3 ∨ c = y4 ∨ c = m1 ∨ c = m2 ∨
                  c = d1 ∨ c = d2 := by simpa using hc
              rcases hflat with rfl | rfl | rfl | rfl | rfl | rfl | rfl | rfl <;> assumption
            · intro c hc
              exact List.all_eq_true.mp hall c hc
          next hall => simp at h
        next hsd => simp at h
      case isFalse hcond => simp at h
    | [] => simp [parsePostFilename] at h
    | [a] => simp [parsePostFilename] at h
    | [a, b] => simp [parsePostFilename] at h
    | [a, b, c] => simp [parsePostFilename] at h
    | [a, b, c, d] => simp [parsePostFilename] at h
    | [a, b, c, d, e] => simp [parsePostFilename] at h
    | [a, b, c, d, e, g] => simp [parsePostFilename] at h
    | [a, b, c, d, e, g, i] => simp [parsePostFilename] at h
    | [a, b, c, d, e, g, i, j] => simp [parsePostFilename] at h
    | [a, b, c, d, e, g, i, j, k] => simp [parsePostFilename] at h
    | [a, b, c, d, e, g, i, j, k, l] => simp [parsePostFilename] at h
  · rintro ⟨y, m, d, slug, hf, hy4, hm2, hd2, hdig, hne, hslug⟩
    obtain ⟨y1, y2, y3, y4, rfl⟩ := (length_eq_four_iff y).mp hy4
    obtain ⟨m1, m2', rfl⟩ := (length_eq_two_iff m).mp hm2
    obtain ⟨d1, d2', rfl⟩ := (length_eq_two_iff d).mp hd2
    subst hf
    have hy1 := hdig y1 (by simp)
    have hy2 := hdig y2 (by simp)
    have hy3 := hdig y3 (by simp)
    have hy4' := hdig y4 (by simp)
    have hm1 := hdig m1 (by simp)
    have hm2' := hdig m2' (by simp)
    have hd1 := hdig d1 (by simp)
    have hd2' := hdig d2' (by simp)
    have hallslug : slug.all isSlugChar = true := List.all_eq_true.mpr hslug
    have hallnl : slug.all notLineTerm = true :=
      List.all_eq_true.mpr fun c hc => isSlugChar_notLineTerm (hslug c hc)
    have hsd := stripDotMd_append slug hne hallnl
    simp only [List.cons_append, List.nil_append]
    simp [parsePostFilename, hy1, hy2, hy3, hy4', hm1, hm2', hd1, hd2', hsd, hallslug]

theorem selectPost_isSome_iff (parts : List Str) :
    (selectPost parts).isSome = true ↔
      (2 ≤ parts.length ∧ isValidCategory (partsCategory parts) = true ∧
       isValidFilename (partsFilename parts) = true ∧
       (parsePostFilename (partsFilename parts)).isSome = true) := by
  simp only [selectPost]
  split
  next h2 =>
    constructor
    · intro h; simp at h
    · rintro ⟨hl, -⟩; omega
  next h2 =>
    split
    next hc =>
      rw [Bool.not_eq_true'] at hc
      constructor
      · intro h; simp at h
      · rintro ⟨-, hcat, -⟩; rw [hc] at hcat; cases hcat
    next hc =>
      rw [Bool.not_eq_true', Bool.not_eq_false] at hc
      split
      next hf =>
        rw [Bool.not_eq_true'] at hf
        constructor
        · intro h; simp at h
        · rintro ⟨-, -, hfn, -⟩; rw [hf] at hfn; cases hfn
      next hf =>
        rw [Bool.not_eq_true', Bool.not_eq_false] at hf
        cases hp : parsePostFilename (partsFilename parts) with
        | none =>
          constructor
          · intro h; simp at h
          · rintro ⟨-, -, -, hps⟩; exact Bool.noConfusion hps
        | some n =>
          constructor
          · intro _; exact ⟨by omega, hc, hf, rfl⟩
          · intro _; rfl

/-- Claim C1: a filename is accepted by `parsePostFilename` exactly when it
has the shape `YYYY-MM-DD~slug.md` with four/two/two digit groups and a
nonempty slug over `[a-z0-9-]`; and the per-file selection of `main`
accepts a post only if (besides the path-segment and validator checks) its
filename passes `parsePostFilename`, so any other filename is excluded
from the site output. -/
theorem c1_filename_acceptance :
    (∀ f : Str, (parsePostFilename f).isSome = true ↔ PostPatternHolds f) ∧
    (∀ parts : List Str, (selectPost parts).isSome = true ↔
      (2 ≤ parts.length ∧ isValidCategory (partsCategory parts) = true ∧
       isValidFilename (partsFilename parts) = true ∧
       PostPatternHolds (partsFilename parts))) := by
  refine ⟨parsePostFilename_isSome_iff, fun parts => ?_⟩
  rw [selectPost_isSome_iff parts, parsePostFilename_isSome_iff (partsFilename parts)]

/-! ### `calculateReadingTime` (build.js lines 138-144) -/

/-- Word count: split on whitespace, keep nonempty tokens (lines 139-141). -/
def wordCount (s : Str) : Nat :=
  ((splitOnP jsWs s).filter (fun w => decide (0 < w.length))).length

/-- `Math.max(1, Math.ceil(wordCount / 238))` on natural numbers. -/
def readingMinutes (w : Nat) : Nat :=
  max 1 ((w + 237) / 238)

/-- Model of `calculateReadingTime` (line 138): `"<n> min"`. -/
def calculateReadingTime (s : Str) : Str :=
  (Nat.repr (readingMinutes (wordCount s))).data ++ " min".data

/-- Claim C4: the computed reading time is `max(1, ceil(w / 238))` minutes
for `w` the number of nonempty whitespace-delimited tokens, formatted
`"<n> min"`; it is always at least 1 and monotone in the word count. -/
theorem c4_reading_time :
    (∀ s : Str, calculateReadingTime s
        = (Nat.repr (max 1 ((wordCount s + 237) / 238))).data ++ " min".data) ∧
    (∀ w : Nat, 1 ≤ readingMinutes w) ∧
    (∀ w₁ w₂ : Nat, w₁ ≤ w₂ → readingMinutes w₁ ≤ readingMinutes w₂) := by
  refine ⟨fun s => rfl, fun w => le_max_left _ _, fun w₁ w₂ h => ?_⟩
  exact max_le_max le_rfl (Nat.div_le_div_right (by omega))

/-- Witness for C4 at concrete word counts. -/
theorem c4_reading_time_witness :
    3 ≤ 500 ∧ readingMinutes 3 ≤ readingMinutes 500 :=
  ⟨by decide, c4_reading_time.2.2 3 500 (by decide)⟩

/-! ### The hardened `link_open` renderer rule (build.js lines 58-78) -/

/-- Model of `isValidUrl` (lines 58-61): rejects
`/^(javascript|data|vbscript|file):/i`. -/
def isValidUrl (url : Str) : Bool :=
  !(["javascript:".data, "data:".data, "vbscript:".data, "file:".data].any
      (fun p => p.isPrefixOf (url.map Char.toLower)))

/-- A markdown-it token: an attribute list in order. -/
structure Token where
  attrs : List (Str × Str)

/-- markdown-it `Token.attrGet`: value of the first attribute with the
given name. -/
def attrGet (t : Token) (n : Str) : Option Str :=
  (t.attrs.find? (fun a => a.1 == n)).map (fun a => a.2)

def setFirst : List (Str × Str) → Str → Str → List (Str × Str)
  | [], n, v => [(n, v)]
  | (a, b) :: rest, n, v =>
    if a == n then (a, v) :: rest else (a, b) :: setFirst rest n v

/-- markdown-it `Token.attrSet`: overwrite the first attribute with the
given name, or push a new one. -/
def attrSet (t : Token) (n v : Str) : Token :=
  ⟨setFirst t.attrs n v⟩

/-- `rel.split(/\s+/).filter(Boolean)` (line 72). -/
def splitWsTokens (s : Str) : List Str :=
  (splitOnP jsWs s).filter (fun w => decide (w ≠ []))

/-- The relation-token set after the `link_open` override: the existing
tokens deduplicated in insertion order, then `noopener` and `noreferrer`
added (lines 72-74). -/
def relTokensAfter (rel : Str) : List Str :=
  addUnique (addUnique (dedup (splitWsTokens rel)) "noopener".data) "noreferrer".data

/-- Model of the overridden `md.renderer.rules.link_open` (lines 64-78),
as the transformation it performs on the token before rendering. -/
def link_open (t : Token) : Token :=
  let t1 :=
    match attrGet t "href".data with
    | some href => if !isValidUrl href then attrSet t "href".data "#".data else t
    | none => t
  let rel := (attrGet t1 "rel".data).getD []
  attrSet t1 "rel".data (joinSp (relTokensAfter rel))

theorem contains_iff_mem (l : List Str) (x : Str) : l.contains x = true ↔ x ∈ l := by
  simp [List.contains, List.elem_iff]

theorem mem_addUnique {l : List Str} {x y : Str} :
    y ∈ addUnique l x ↔ y ∈ l ∨ y = x := by
  unfold addUnique
  split
  next h => simp only [iff_self_or]; rintro rfl; exact (contains_iff_mem l y).mp h
  next h => simp

theorem nodup_addUnique {l : List Str} {x : Str} (h : l.Nodup) :
    (addUnique l x).Nodup := by
  unfold addUnique
  split
  next => exact h
  next hc =>
    rw [List.nodup_append]
    refine ⟨h, List.nodup_singleton x, ?_⟩
    intro a ha hax
    rw [List.mem_singleton] at hax
    subst hax
    exact hc ((contains_iff_mem l a).mpr ha)

theorem foldl_addUnique_mem (l : List Str) :
    ∀ (acc : List Str) (y : Str), y ∈ l.foldl addUnique acc ↔ y ∈ acc ∨ y ∈ l := by
  induction l with
  | nil => intro acc y; simp
  | cons a l ih =>
    intro acc y
    rw [List.foldl_cons, ih, mem_addUnique]
    simp only [List.mem_cons]
    tauto

theorem foldl_addUnique_nodup (l : List Str) :
    ∀ acc : List Str, acc.Nodup → (l.foldl addUnique acc).Nodup := by
  induction l with
  | nil => intro acc h; exact h
  | cons a l ih => intro acc h; exact ih _ (nodup_addUnique h)

theorem mem_dedup {l : List Str} {y : Str} : y ∈ dedup l ↔ y ∈ l := by
  unfold dedup
  rw [foldl_addUnique_mem]
  simp

theorem nodup_dedup (l : List Str) : (dedup l).Nodup :=
  foldl_addUnique_nodup l [] List.nodup_nil

theorem attrGet_attrSet_self (t : Token) (n v : Str) :
    attrGet (attrSet t n v) n = some v := by
  unfold attrGet attrSet
  induction t.attrs with
  | nil => simp [setFirst]
  | cons p rest ih =>
    obtain ⟨a, b⟩ := p
    by_cases h : a == n
    · simp [setFirst, h, List.find?]
    · simp only [setFirst]
      rw [if_neg (by simp_all)]
      simpa [List.find?, h] using ih

theorem attrGet_attrSet_ne (t : Token) (n v n' : Str) (h : n' ≠ n) :
    attrGet (attrSet t n v) n' = attrGet t n' := by
  unfold attrGet attrSet
  induction t.attrs with
  | nil =>
    simp only [setFirst, List.find?]
    have : (n == n') = false := by
      rw [beq_eq_false_iff_ne]; exact fun hh => h hh.symm
    simp [this]
  | cons p rest ih =>
    obtain ⟨a, b⟩ := p
    by_cases hh : a == n
    · have han : a = n := by simpa using hh
      subst han
      have : (a == n') = false := by
        rw [beq_eq_false_iff_ne]; exact fun hh => h hh.symm
      simp [setFirst, List.find?, this]
    · simp only [setFirst]
      rw [if_neg (by simp_all)]
      by_cases ha' : a == n'
      · simp [List.find?, ha']
      · simpa [List.find?, ha'] using ih

theorem lower_fixed_of_dangerous (p : Str)
    (hp : p ∈ ["javascript:".data, "data:".data, "vbscript:".data, "file:".data]) :
    p.map Char.toLower = p := by
  simp only [List.mem_cons, List.not_mem_nil, or_false] at hp
  rcases hp with rfl | rfl | rfl | rfl <;> decide

theorem isValidUrl_false_of_dangerous {href : Str}
    (h : (["javascript:".data, "data:".data, "vbscript:".data, "file:".data].any
      (fun p => p.isPrefixOf href)) = true) :
    isValidUrl href = false := by
  rw [List.any_eq_true] at h
  obtain ⟨p, hp, hpre⟩ := h
  have hpre' : p <+: href := by
    simpa [List.isPrefixOf_iff_prefix] using hpre
  obtain ⟨s, rfl⟩ := hpre'
  unfold isValidUrl
  rw [Bool.not_eq_false']
  rw [List.any_eq_true]
  refine ⟨p, hp, ?_⟩
  rw [List.isPrefixOf_iff_prefix, List.map_append, lower_fixed_of_dangerous p hp]
  exact ⟨s.map Char.toLower, rfl⟩

/-- Claim C2: a link whose `href` begins with a dangerous scheme
(`javascript:`, `data:`, `vbscript:`, `file:`) is rendered with `href`
replaced by the placeholder `#`; and the rendered `rel` attribute is the
join of a token list that contains `noopener` and `noreferrer`, contains
every relation token the link already had, has no duplicates, and
contains nothing else. -/
theorem c2_link_rendering (t : Token) :
    (∀ href : Str, attrGet t "href".data = some href →
        (["javascript:".data, "data:".data, "vbscript:".data, "file:".data].any
          (fun p => p.isPrefixOf href)) = true →
        attrGet (link_open t) "href".data = some "#".data) ∧
    (attrGet (link_open t) "rel".data
        = some (joinSp (relTokensAfter ((attrGet t "rel".data).getD []))) ∧
      "noopener".data ∈ relTokensAfter ((attrGet t "rel".data).getD []) ∧
      "noreferrer".data ∈ relTokensAfter ((attrGet t "rel".data).getD []) ∧
      (∀ x ∈ splitWsTokens ((attrGet t "rel".data).getD []),
        x ∈ relTokensAfter ((attrGet t "rel".data).getD [])) ∧
      (relTokensAfter ((attrGet t "rel".data).getD [])).Nodup ∧
      (∀ x ∈ relTokensAfter ((attrGet t "rel".data).getD []),
        x ∈ splitWsTokens ((attrGet t "rel".data).getD []) ∨
        x = "noopener".data ∨ x = "noreferrer".data)) := by
  have hne : "rel".data ≠ "href".data := by decide
  constructor
  · intro href hhref hdang
    have hbad := isValidUrl_false_of_dangerous hdang
    simp only [link_open, hhref, hbad, Bool.not_false, if_true]
    rw [attrGet_attrSet_ne _ _ _ _ (by decide)]
    exact attrGet_attrSet_self _ _ _
  · have hrel1 : attrGet (link_open t) "rel".data
        = some (joinSp (relTokensAfter ((attrGet t "rel".data).getD []))) := by
      cases hh : attrGet t "href".data with
      | none =>
        simp only [link_open, hh]
        exact attrGet_attrSet_self _ _ _
      | some href =>
        cases hv : isValidUrl href with
        | false =>
          simp only [link_open, hh, hv, Bool.not_false, if_true]
          rw [attrGet_attrSet_ne t "href".data "#".data "rel".data hne]
          exact attrGet_attrSet_self _ _ _
        | true =>
          simp only [link_open, hh, hv, Bool.not_true, if_false]
          exact attrGet_attrSet_self _ _ _
    refine ⟨hrel1, ?_, ?_, ?_, ?_, ?_⟩
    · exact mem_addUnique.mpr (Or.inl (mem_addUnique.mpr (Or.inr rfl)))
    · exact mem_addUnique.mpr (Or.inr rfl)
    · intro x hx
      exact mem_addUnique.mpr (Or.inl (mem_addUnique.mpr (Or.inl (mem_dedup.mpr hx))))
    · exact nodup_addUnique (nodup_addUnique (nodup_dedup _))
    · intro x hx
      rcases mem_addUnique.mp hx with hx1 | rfl
      · rcases mem_addUnique.mp hx1 with hx2 | rfl
        · exact Or.inl (mem_dedup.mp hx2)
        · exact Or.inr (Or.inl rfl)
      · exact Or.inr (Or.inr rfl)

/-- Witness for C2: the round-trip of the specification, a link with
`href="javascript:alert(1)"` and `rel="me noopener"`. -/
theorem c2_link_rendering_witness :
    attrGet (link_open
        ⟨[("href".data, "javascript:alert(1)".data), ("rel".data, "me noopener".data)]⟩)
        "href".data = some "#".data :=
  (c2_link_rendering
      ⟨[("href".data, "javascript:alert(1)".data), ("rel".data, "me noopener".data)]⟩).1
    "javascript:alert(1)".data (by decide) (by decide)

/-! ### `humanize` (build.js lines 133-135) and
`extractFirstParagraph` (lines 147-164) -/

/-- The `\b\w`-capitalization pass of `humanize`: uppercase every word
character that is not preceded by a word character. -/
def capWordsGo : Bool → Str → Str
  | _, [] => []
  | prevW, c :: rest =>
    if isWordChar c then
      (if prevW then c else c.toUpper) :: capWordsGo true rest
    else c :: capWordsGo false rest

/-- Model of `humanize`: replace every `-` by a space, then capitalize at
each word boundary. -/
def humanize (s : Str) : Str :=
  capWordsGo false (s.map (fun c => if c == '-' then ' ' else c))

/-- One step of splitting on `/\n\n+/`: the text before the first
blank-line separator, and the remainder after the whole newline run
(`none` when no separator occurs). -/
def breakPara : Str → Str × Option Str
  | [] => ([], none)
  | '\n' :: '\n' :: rest => ([], some (rest.dropWhile (fun c => c == '\n')))
  | c :: rest =>
    let pr := breakPara rest
    (c :: pr.1, pr.2)

def splitParasF : Nat → Str → List Str
  | 0, s => [s]
  | Nat.succ f, s =>
    match breakPara s with
    | (p, none) => [p]
    | (p, some r) => p :: splitParasF f r

/-- `content.split(/\n\n+/)`. -/
def splitParas (s : Str) : List Str := splitParasF s.length s

/-- Characters up to (but excluding) the first occurrence of `stop`,
together with the remainder after it. -/
def takeUntil (stop : Char) : Str → Option (Str × Str)
  | [] => none
  | c :: rest =>
    if c == stop then some ([], rest)
    else
      match takeUntil stop rest with
      | some br => some (c :: br.1, br.2)
      | none => none

/-- One attempted match of `\[([^\]]+)\]\(([^\)]+)\)` starting just after
a `[`: the link text and the remainder after the closing parenthesis. -/
def parseLinkAt (s : Str) : Option (Str × Str) :=
  match takeUntil ']' s with
  | some (text, rest1) =>
    if text.isEmpty then none
    else
      match rest1 with
      | '(' :: rest2 =>
        match takeUntil ')' rest2 with
        | some (url, rest3) => if url.isEmpty then none else some (text, rest3)
        | none => none
      | _ => none
  | none => none

def stripLinksF : Nat → Str → Str
  | 0, s => s
  | Nat.succ _, [] => []
  | Nat.succ f, '[' :: rest =>
    match parseLinkAt rest with
    | some (text, r) => text ++ stripLinksF f r
    | none => '[' :: stripLinksF f rest
  | Nat.succ f, c :: rest => c :: stripLinksF f rest

/-- `replace(/\[([^\]]+)\]\(([^\)]+)\)/g, "$1")`: links become their
display text. -/
def stripLinks (s : Str) : Str := stripLinksF s.length s

/-- `replace(/[*_~`]/g, "")`. -/
def stripFmtMarks (s : Str) : Str :=
  s.filter (fun c => !(c == '*' || c == '_' || c == '~' || c == Char.ofNat 96))

/-- Model of `extractFirstParagraph` (lines 147-164). -/
def extractFirstParagraph (content : Str) : Str :=
  let paragraphs := ((splitParas content).map trimStr).filter
      (fun p => decide (0 < p.length) && !("#".data.isPrefixOf p))
  match paragraphs with
  | [] => []
  | firstPara :: _ => (trimStr (stripLinks (stripFmtMarks firstPara))).take 500

/-! ### Front-matter field capping in `main` (build.js lines 419-425) -/

/-- The front-matter fields consumed by the build (line 409 and 419-425). -/
structure FrontMatter where
  title : Option Str
  subtitle : Option Str
  description : Option Str
  og_image : Option Str
  og_title : Option Str
  tags : Option (List Str)
  featured : Bool

/-- Line 419: `fm?.title ? String(fm.title).slice(0, 200) : humanize(slug)`. -/
def postTitle (fm : FrontMatter) (slug : Str) : Str :=
  match fm.title with
  | some t => t.take 200
  | none => humanize slug

/-- Line 420. -/
def postSubtitle (fm : FrontMatter) : Str :=
  match fm.subtitle with
  | some s => s.take 200
  | none => []

/-- Line 421. -/
def postDescription (fm : FrontMatter) (content : Str) : Str :=
  match fm.description with
  | some d => d.take 500
  | none => extractFirstParagraph content

/-- Line 422. -/
def postTags (fm : FrontMatter) : List Str :=
  match fm.tags with
  | some ts => ts.map (fun t => t.take 50)
  | none => []

/-- Line 424. -/
def postOgImage (fm : FrontMatter) : Str :=
  match fm.og_image with
  | some s => s.take 500
  | none => []

/-- Line 425. -/
def postOgTitle (fm : FrontMatter) : Str :=
  match fm.og_title with
  | some s => s.take 200
  | none => []

/-- Claim C10: string-valued front-matter fields are length-capped before
use (title, subtitle, og_title to 200; description and og_image to 500;
each tag to 50), and a missing title defaults to the slug with hyphens
replaced by spaces and each word capitalized. -/
theorem c10_frontmatter_caps (fm : FrontMatter) (slug content : Str) :
    ((∀ t, fm.title = some t →
        postTitle fm slug = t.take 200 ∧ (postTitle fm slug).length ≤ 200) ∧
      (fm.title = none → postTitle fm slug = humanize slug)) ∧
    (∀ s, fm.subtitle = some s →
      postSubtitle fm = s.take 200 ∧ (postSubtitle fm).length ≤ 200) ∧
    (∀ d, fm.description = some d →
      postDescription fm content = d.take 500 ∧ (postDescription fm content).length ≤ 500) ∧
    (∀ s, fm.og_image = some s →
      postOgImage fm = s.take 500 ∧ (postOgImage fm).length ≤ 500) ∧
    (∀ s, fm.og_title = some s →
      postOgTitle fm = s.take 200 ∧ (postOgTitle fm).length ≤ 200) ∧
    (∀ tag ∈ postTags fm, tag.length ≤ 50) ∧
    humanize "hello-world".data = "Hello World".data := by
  refine ⟨⟨?_, ?_⟩, ?_, ?_, ?_, ?_, ?_, by decide⟩
  · intro t ht
    have h1 : postTitle fm slug = t.take 200 := by simp only [postTitle, ht]
    exact ⟨h1, by rw [h1, List.length_take]; omega⟩
  · intro ht; simp only [postTitle, ht]
  · intro s hs
    have h1 : postSubtitle fm = s.take 200 := by simp only [postSubtitle, hs]
    exact ⟨h1, by rw [h1, List.length_take]; omega⟩
  · intro d hd
    have h1 : postDescription fm content = d.take 500 := by
      simp only [postDescription, hd]
    exact ⟨h1, by rw [h1, List.length_take]; omega⟩
  · intro s hs
    have h1 : postOgImage fm = s.take 500 := by simp only [postOgImage, hs]
    exact ⟨h1, by rw [h1, List.length_take]; omega⟩
  · intro s hs
    have h1 : postOgTitle fm = s.take 200 := by simp only [postOgTitle, hs]
    exact ⟨h1, by rw [h1, List.length_take]; omega⟩
  · intro tag htag
    cases hts : fm.tags with
    | none => simp [postTags, hts] at htag
    | some ts =>
      simp only [postTags, hts, List.mem_map] at htag
      obtain ⟨t, -, rfl⟩ := htag
      rw [List.length_take]; omega

/-- Witness for C10 at a concrete front-matter record. -/
theorem c10_frontmatter_caps_witness :
    postTitle ⟨some "t".data, none, none, none, none, none, false⟩ "s".data
        = "t".data.take 200 ∧
      (postTitle ⟨some "t".data, none, none, none, none, none, false⟩ "s".data).length ≤ 200 :=
  (c10_frontmatter_caps ⟨some "t".data, none, none, none, none, none, false⟩
    "s".data "c".data).1.1 "t".data rfl

/-! ### Front-matter splitting (`matter(raw)`, build.js line 409) -/

def parseKVLine (line : Str) : Option (Str × Str) :=
  match takeUntil ':' line with
  | some kv => some (trimStr kv.1, trimStr kv.2)
  | none => none

def parseKV (block : Str) : List (Str × Str) :=
  (splitOnP (fun c => c == '\n') block).filterMap parseKVLine

/-- Modelled from the spec: the front-matter parsing step `matter(raw)`
is provided by the `gray-matter` dependency, whose code is not part of
src/. Per the specification's contract it splits the raw text into a
metadata mapping and the body, where an unstructured or missing metadata
block yields an empty mapping together with the body, and it never
fails. -/
def matter (raw : Str) : List (Str × Str) × Str :=
  if "---\n".data.isPrefixOf raw then
    match splitFirstSub "\n---".data (List.drop 4 raw) with
    | some mb => (parseKV mb.1, mb.2.dropWhile (fun c => c == '\n'))
    | none => ([], raw)
  else ([], raw)

/-- Claim C8: front-matter parsing always returns a (metadata, body)
pair; missing front matter yields the empty mapping with the unchanged
body, and an opening delimiter that is never closed (an unstructured
block) also yields the empty mapping; the function is total, so parsing
never fails. -/
theorem c8_front_matter_total (raw : Str) :
    (∃ m body, matter raw = (m, body)) ∧
    ("---\n".data.isPrefixOf raw = false → matter raw = ([], raw)) ∧
    ("---\n".data.isPrefixOf raw = true →
      splitFirstSub "\n---".data (List.drop 4 raw) = none → matter raw = ([], raw)) := by
  refine ⟨⟨(matter raw).1, (matter raw).2, rfl⟩, ?_, ?_⟩
  · intro h
    simp only [matter, h]
    rfl
  · intro h hs
    simp [matter, h, hs]

/-- Witness for C8 at a document with no front matter. -/
theorem c8_front_matter_total_witness :
    matter "just a body".data = ([], "just a body".data) :=
  (c8_front_matter_total "just a body".data).2.1 (by decide)

/-! ### `injectMetaIntoHead` (build.js lines 293-316) -/

def metaMarker : Str := "<!-- __META__ -->".data

def headClose : Str := "</head>".data

/-- `/rel=["']canonical["']/i` applied to the document. -/
def hasCanonicalTag (html : Str) : Bool :=
  ['"', '\''].any fun q1 => ['"', '\''].any fun q2 =>
    hasSub ("rel=".data ++ q1 :: ("canonical".data ++ [q2])) (html.map Char.toLower)

/-- `/property=["']og:title["']/i` applied to the document. -/
def hasOgTitleTag (html : Str) : Bool :=
  ['"', '\''].any fun q1 => ['"', '\''].any fun q2 =>
    hasSub ("property=".data ++ q1 :: ("og:title".data ++ [q2])) (html.map Char.toLower)

/-- `/property=["']og:image["']/i`: an observer used to exhibit an Open
Graph tag other than `og:title` (the source itself never tests for it). -/
def hasOgImageTag (html : Str) : Bool :=
  ['"', '\''].any fun q1 => ['"', '\''].any fun q2 =>
    hasSub ("property=".data ++ q1 :: ("og:image".data ++ [q2])) (html.map Char.toLower)

/-- `metaBlock.split("\n").filter(line => line.includes('rel="canonical"')).join("\n  ")`. -/
def canonicalOnlyLines (metaBlock : Str) : Str :=
  List.intercalate "\n  ".data
    ((splitOnP (fun c => c == '\n') metaBlock).filter
      (fun line => hasSub "rel=\"canonical\"".data line))

/-- Model of `injectMetaIntoHead` (lines 293-316). -/
def injectMetaIntoHead (html metaBlock : Str) : Str :=
  if hasSub metaMarker html then replaceFirst metaMarker metaBlock html
  else if !hasCanonicalTag html && !hasOgTitleTag html then
    replaceFirst headClose ("  ".data ++ metaBlock ++ "\n".data ++ headClose) html
  else if !hasCanonicalTag html then
    if (canonicalOnlyLines metaBlock).isEmpty then html
    else replaceFirst headClose
      ("  ".data ++ canonicalOnlyLines metaBlock ++ "\n".data ++ headClose) html
  else html

/-- Counterexample for C7 as stated: a template head that already
contains an Open Graph tag (`og:image`) but no canonical tag and no
`og:title` tag, against a metadata block holding a canonical link line
and an `og:title` line. The claim prescribes that at most the canonical
link line be injected here (an OG tag exists), but the code tests only
for `og:title` and inserts the whole block: the rendered head gains the
`og:title` line, and the output differs from the canonical-only
injection. -/
theorem c7_meta_injection_counterexample :
    hasOgImageTag "<head><meta property=\"og:image\" content=\"https://x/y.png\" /></head>".data
        = true ∧
    hasCanonicalTag "<head><meta property=\"og:image\" content=\"https://x/y.png\" /></head>".data
        = false ∧
    hasOgTitleTag "<head><meta property=\"og:image\" content=\"https://x/y.png\" /></head>".data
        = false ∧
    hasSub metaMarker
        "<head><meta property=\"og:image\" content=\"https://x/y.png\" /></head>".data = false ∧
    canonicalOnlyLines
        "<link rel=\"canonical\" href=\"https://e/\" />\n<meta property=\"og:title\" content=\"T\" />".data
      ≠ "<link rel=\"canonical\" href=\"https://e/\" />\n<meta property=\"og:title\" content=\"T\" />".data ∧
    hasSub "<meta property=\"og:title\" content=\"T\" />".data
        (injectMetaIntoHead
          "<head><meta property=\"og:image\" content=\"https://x/y.png\" /></head>".data
          "<link rel=\"canonical\" href=\"https://e/\" />\n<meta property=\"og:title\" content=\"T\" />".data)
      = true ∧
    hasSub "<meta property=\"og:title\" content=\"T\" />".data
        (replaceFirst headClose
          ("  ".data
            ++ canonicalOnlyLines
              "<link rel=\"canonical\" href=\"https://e/\" />\n<meta property=\"og:title\" content=\"T\" />".data
            ++ "\n".data ++ headClose)
          "<head><meta property=\"og:image\" content=\"https://x/y.png\" /></head>".data)
      = false ∧
    injectMetaIntoHead
        "<head><meta property=\"og:image\" content=\"https://x/y.png\" /></head>".data
        "<link rel=\"canonical\" href=\"https://e/\" />\n<meta property=\"og:title\" content=\"T\" />".data
      ≠ replaceFirst headClose
          ("  ".data
            ++ canonicalOnlyLines
              "<link rel=\"canonical\" href=\"https://e/\" />\n<meta property=\"og:title\" content=\"T\" />".data
            ++ "\n".data ++ headClose)
          "<head><meta property=\"og:image\" content=\"https://x/y.png\" /></head>".data := by
  refine ⟨by decide, by decide, by decide, by decide, by decide, by decide, by decide, by decide⟩

/-- Claim C7 (amended): metadata injection replaces the dedicated marker
comment when present; otherwise, when the template has neither a
canonical tag nor an `og:title` tag, the whole block is inserted before
the closing head tag; when a canonical tag is missing but an `og:title`
tag exists, only the canonical link lines of the block are injected
(nothing when the block has none); otherwise the template is returned
unchanged. -/
theorem c7_meta_injection (html metaBlock : Str) :
    (hasSub metaMarker html = true →
      injectMetaIntoHead html metaBlock = replaceFirst metaMarker metaBlock html) ∧
    (hasSub metaMarker html = false → hasCanonicalTag html = false →
      hasOgTitleTag html = false →
      injectMetaIntoHead html metaBlock
        = replaceFirst headClose ("  ".data ++ metaBlock ++ "\n".data ++ headClose) html) ∧
    (hasSub metaMarker html = false → hasCanonicalTag html = false →
      hasOgTitleTag html = true →
      injectMetaIntoHead html metaBlock
        = if (canonicalOnlyLines metaBlock).isEmpty then html
          else replaceFirst headClose
            ("  ".data ++ canonicalOnlyLines metaBlock ++ "\n".data ++ headClose) html) ∧
    (hasSub metaMarker html = false → hasCanonicalTag html = true →
      injectMetaIntoHead html metaBlock = html) := by
  refine ⟨?_, ?_, ?_, ?_⟩
  · intro h; simp only [injectMetaIntoHead, h, if_true]
  · intro h hc ho
    simp [injectMetaIntoHead, h, hc, ho]
  · intro h hc ho
    simp [injectMetaIntoHead, h, hc, ho]
  · intro h hc
    simp [injectMetaIntoHead, h, hc]

/-- Witness for C7 (amended) at a template containing the marker. -/
theorem c7_meta_injection_witness :
    injectMetaIntoHead "<head><!-- __META__ --></head>".data "<meta />".data
      = replaceFirst metaMarker "<meta />".data "<head><!-- __META__ --></head>".data :=
  (c7_meta_injection "<head><!-- __META__ --></head>".data "<meta />".data).1 (by decide)

/-! ### `toIsoDate` (build.js lines 340-342) and the sitemap post
entries (lines 597-600) -/

def digitVal (c : Char) : Nat := c.toNat - '0'.toNat

def isLeapYear (y : Nat) : Bool :=
  (y % 4 == 0 && y % 100 != 0) || y % 400 == 0

def daysInMonth (y m : Nat) : Nat :=
  if m == 2 then (if isLeapYear y then 29 else 28)
  else if m == 4 || m == 6 || m == 9 || m == 11 then 30
  else 31

/-- Model of `toIsoDate`:
`new Date(dateStr + "T00:00:00.000Z").toISOString()` under the
ECMAScript date-time string format. A string whose fields are not a
valid calendar date gives an invalid `Date`, on which `toISOString`
throws a `RangeError`; the thrown error is modelled as `none`. -/
def toIsoDate (dateStr : Str) : Option Str :=
  match dateStr with
  | [y1, y2, y3, y4, h1, m1, m2, h2, d1, d2] =>
    if y1.isDigit && y2.isDigit && y3.isDigit && y4.isDigit && h1 == '-' &&
        m1.isDigit && m2.isDigit && h2 == '-' && d1.isDigit && d2.isDigit then
      let y := ((digitVal y1 * 10 + digitVal y2) * 10 + digitVal y3) * 10 + digitVal y4
      let m := digitVal m1 * 10 + digitVal m2
      let d := digitVal d1 * 10 + digitVal d2
      if 1 ≤ m && m ≤ 12 && 1 ≤ d && d ≤ daysInMonth y m then
        some (dateStr ++ "T00:00:00.000Z".data)
      else none
    else none
  | _ => none

/-- A processed post as accumulated by `main` (lines 477-489). -/
structure Post where
  title : Str
  subtitle : Str
  description : Str
  tags : List Str
  featured : Bool
  readingTime : Str
  category : Str
  date : Str
  slug : Str
  permalink : Str
  url : Str

/-- The per-post sitemap entries of `main` (lines 597-600): location and
the `toIsoDate` conversion of the post's date string. -/
def sitemapPostItems (posts : List Post) : List (Str × Option Str) :=
  posts.map (fun p => (p.url, toIsoDate p.date))

/-- Claim C9: any filename whose date portion is three digit groups of
lengths 4, 2 and 2 is accepted by `parsePostFilename` with those digits
used verbatim as the post's date string — no calendar validation happens
(e.g. `2024-13-99` is accepted) — and the sitemap's last-modified
conversion `toIsoDate` is then applied to that unvalidated string. -/
theorem c9_date_not_validated :
    (∀ (y1 y2 y3 y4 m1 m2 d1 d2 : Char) (slug : Str),
      y1.isDigit = true → y2.isDigit = true → y3.isDigit = true → y4.isDigit = true →
      m1.isDigit = true → m2.isDigit = true → d1.isDigit = true → d2.isDigit = true →
      slug ≠ [] → (∀ c ∈ slug, isSlugChar c = true) →
      parsePostFilename
          ([y1, y2, y3, y4] ++ '-' :: [m1, m2] ++ '-' :: [d1, d2] ++ '~' :: (slug ++ ".md".data))
        = some { yyyy := [y1, y2, y3, y4], mm := [m1, m2], dd := [d1, d2], slug := slug,
                 date := [y1, y2, y3, y4] ++ '-' :: [m1, m2] ++ '-' :: [d1, d2] }) ∧
    ((parsePostFilename "2024-13-99~some-post.md".data).map PostName.date
        = some "2024-13-99".data) ∧
    (∀ p : Post, p.date = "2024-13-99".data →
      sitemapPostItems [p] = [(p.url, none)]) := by
  refine ⟨?_, by decide, ?_⟩
  · intro y1 y2 y3 y4 m1 m2 d1 d2 slug hy1 hy2 hy3 hy4 hm1 hm2 hd1 hd2 hne hslug
    have hallslug : slug.all isSlugChar = true := List.all_eq_true.mpr hslug
    have hallnl : slug.all notLineTerm = true :=
      List.all_eq_true.mpr fun c hc => isSlugChar_notLineTerm (hslug c hc)
    have hsd := stripDotMd_append slug hne hallnl
    simp only [List.cons_append, List.nil_append]
    simp [parsePostFilename, hy1, hy2, hy3, hy4, hm1, hm2, hd1, hd2, hsd, hallslug]
  · intro p hdate
    simp [sitemapPostItems, hdate]
    decide

/-- Witness for C9: the parse of `2024-13-99~a.md` through the general
statement. -/
theorem c9_date_not_validated_witness :
    parsePostFilename
        (['2', '0', '2', '4'] ++ '-' :: ['1', '3'] ++ '-' :: ['9', '9'] ++ '~'
          :: ("a".data ++ ".md".data))
      = some { yyyy := ['2', '0', '2', '4'], mm := ['1', '3'], dd := ['9', '9'],
               slug := "a".data, date := ['2', '0', '2', '4'] ++ '-' :: ['1', '3'] ++ '-' :: ['9', '9'] } :=
  c9_date_not_validated.1 '2' '0' '2' '4' '1' '3' '9' '9' "a".data
    (by decide) (by decide) (by decide) (by decide) (by decide) (by decide) (by decide)
    (by decide) (by decide) (by decide)

/-! ### Decimal representation facts used by the unique-id counter -/

/-- Specification of the decimal digits of `n` (most significant first). -/
def decChars (n : Nat) : Str :=
  if _h : n < 10 then [Nat.digitChar n]
  else decChars (n / 10) ++ [Nat.digitChar (n % 10)]
termination_by n
decreasing_by
  simp_wf
  exact Nat.div_lt_self (by omega) (by decide)

theorem decChars_of_lt {n : Nat} (h : n < 10) : decChars n = [Nat.digitChar n] := by
  conv_lhs => rw [decChars]
  rw [dif_pos h]

theorem decChars_of_ge {n : Nat} (h : ¬n < 10) :
    decChars n = decChars (n / 10) ++ [Nat.digitChar (n % 10)] := by
  conv_lhs => rw [decChars]
  rw [dif_neg h]

theorem toDigitsCore_eq_decChars (f : Nat) :
    ∀ (n : Nat) (acc : Str), n < f →
      Nat.toDigitsCore 10 f n acc = decChars n ++ acc := by
  induction f with
  | zero => intro n acc h; omega
  | succ f ih =>
    intro n acc h
    simp only [Nat.toDigitsCore]
    by_cases h0 : n / 10 = 0
    · have hlt : n < 10 := (Nat.div_eq_zero_iff (by decide)).mp h0
      rw [if_pos h0, decChars_of_lt hlt, Nat.mod_eq_of_lt hlt]
      rfl
    · have h10 : 10 ≤ n := by
        by_contra hh
        exact h0 (Nat.div_eq_of_lt (by omega))
      have hdiv : n / 10 < f := by
        have h1 : n / 10 < n := Nat.div_lt_self (by omega) (by decide)
        omega
      rw [if_neg h0, ih (n / 10) _ hdiv, @decChars_of_ge n (by omega), List.append_assoc]
      rfl

/-- The characters of `Nat.repr`. -/
theorem repr_data_eq_decChars (n : Nat) : (Nat.repr n).data = decChars n := by
  have h : (Nat.repr n).data = Nat.toDigitsCore 10 (n + 1) n [] := rfl
  rw [h, toDigitsCore_eq_decChars (n + 1) n [] (by omega), List.append_nil]

theorem digitChar_inj_lt : ∀ a < 10, ∀ b < 10,
    Nat.digitChar a = Nat.digitChar b → a = b := by decide

theorem decChars_ne_nil (n : Nat) : decChars n ≠ [] := by
  by_cases h : n < 10
  · rw [decChars_of_lt h]; simp
  · rw [decChars_of_ge h]; simp

theorem decChars_inj : ∀ {m n : Nat}, decChars m = decChars n → m = n := by
  intro m
  induction m using Nat.strong_induction_on with
  | _ m ih =>
    intro n h
    by_cases hm : m < 10 <;> by_cases hn : n < 10
    · rw [decChars_of_lt hm, decChars_of_lt hn] at h
      exact digitChar_inj_lt m hm n hn (by simpa using h)
    · rw [decChars_of_lt hm, decChars_of_ge hn] at h
      have hlen := congrArg List.length h
      have hpos : 0 < (decChars (n / 10)).length :=
        List.length_pos.mpr (decChars_ne_nil (n / 10))
      simp only [List.length_append, List.length_cons, List.length_nil] at hlen
      omega
    · rw [decChars_of_ge hm, decChars_of_lt hn] at h
      have hlen := congrArg List.length h
      have hpos : 0 < (decChars (m / 10)).length :=
        List.length_pos.mpr (decChars_ne_nil (m / 10))
      simp only [List.length_append, List.length_cons, List.length_nil] at hlen
      omega
    · rw [decChars_of_ge hm, decChars_of_ge hn] at h
      obtain ⟨hleft, hright⟩ := List.append_inj' h (by rfl)
      have hdiv : m / 10 = n / 10 := by
        have hlt : m / 10 < m := Nat.div_lt_self (by omega) (by decide)
        exact ih (m / 10) hlt hleft
      have hmod : m % 10 = n % 10 := by
        have h1 : Nat.digitChar (m % 10) = Nat.digitChar (n % 10) := by
          simpa using hright
        exact digitChar_inj_lt (m % 10) (Nat.mod_lt m (by decide)) (n % 10)
          (Nat.mod_lt n (by decide)) h1
      omega

theorem repr_data_inj {m n : Nat} (h : (Nat.repr m).data = (Nat.repr n).data) : m = n := by
  rw [repr_data_eq_decChars, repr_data_eq_decChars] at h
  exact decChars_inj h

/-! ### The unique-anchor-id loop of `extractHeadingsAndAddIds`
(build.js lines 188-194) -/

/-- The `while (usedIds.has(uniqueId))` loop, with enough fuel to
exhaust every possible collision. -/
def freshIdGo (used : List Str) (base : Str) : Nat → Str → Nat → Str
  | 0, cur, _ => cur
  | Nat.succ f, cur, counter =>
    if used.contains cur then
      freshIdGo used base f (base ++ '-' :: (Nat.repr counter).data) (counter + 1)
    else cur

/-- `uniqueId` computation: try `base`, `base-1`, `base-2`, … until the
id is unused. -/
def freshId (used : List Str) (base : Str) : Str :=
  freshIdGo used base (used.length + 1) base 1

/-- The candidate sequence tried by the loop. -/
def cand (base : Str) : Nat → Str
  | 0 => base
  | Nat.succ j => base ++ '-' :: (Nat.repr (j + 1)).data

theorem cand_inj (base : Str) : ∀ {i j : Nat}, cand base i = cand base j → i = j := by
  intro i j h
  match i, j with
  | 0, 0 => rfl
  | 0, Nat.succ j =>
    exfalso
    have hlen := congrArg List.length h
    simp [cand, List.length_append] at hlen
  | Nat.succ i, 0 =>
    exfalso
    have hlen := congrArg List.length h
    simp [cand, List.length_append] at hlen
  | Nat.succ i, Nat.succ j =>
    simp only [cand] at h
    have h2 := List.append_cancel_left h
    have h3 : (Nat.repr (i + 1)).data = (Nat.repr (j + 1)).data := by
      simpa using h2
    have := repr_data_inj h3
    omega

theorem exists_cand_notin (used : List Str) (base : Str) :
    ∃ k, k ≤ used.length ∧ cand base k ∉ used := by
  by_contra hcon
  push_neg at hcon
  have hsub : ((List.range (used.length + 1)).map (cand base)) ⊆ used := by
    intro x hx
    rw [List.mem_map] at hx
    obtain ⟨k, hk, rfl⟩ := hx
    rw [List.mem_range] at hk
    exact hcon k (by omega)
  have hinj : Function.Injective (cand base) := fun _ _ hh => cand_inj base hh
  have hnd : ((List.range (used.length + 1)).map (cand base)).Nodup :=
    (List.nodup_range _).map hinj
  have hle := (hnd.subperm hsub).length_le
  simp at hle

theorem freshIdGo_notin (used : List Str) (base : Str) :
    ∀ (f j : Nat), (∃ k, j ≤ k ∧ k < j + f ∧ cand base k ∉ used) →
      freshIdGo used base f (cand base j) (j + 1) ∉ used := by
  intro f
  induction f with
  | zero =>
    intro j h
    obtain ⟨k, hk1, hk2, -⟩ := h
    omega
  | succ f ih =>
    intro j h
    obtain ⟨k, hk1, hk2, hk3⟩ := h
    by_cases hc : used.contains (cand base j) = true
    · have hstep : freshIdGo used base (f + 1) (cand base j) (j + 1)
          = freshIdGo used base f (cand base (j + 1)) (j + 2) := by
        simp only [freshIdGo, hc, if_true]
        rfl
      rw [hstep]
      have hkj : k ≠ j := by
        intro hkj
        subst hkj
        exact hk3 ((contains_iff_mem used (cand base k)).mp hc)
      have := ih (j + 1) ⟨k, by omega, by omega, hk3⟩
      simpa using this
    · rw [Bool.not_eq_true] at hc
      have hnm : cand base j ∉ used := fun hm => by
        rw [← contains_iff_mem used (cand base j), hc] at hm
        cases hm
      have hstep : freshIdGo used base (f + 1) (cand base j) (j + 1) = cand base j := by
        simp [freshIdGo, hc, hnm]
      rw [hstep]
      exact hnm

theorem freshId_notin (used : List Str) (base : Str) : freshId used base ∉ used := by
  obtain ⟨k, hk, hnotin⟩ := exists_cand_notin used base
  have h0 : base = cand base 0 := rfl
  unfold freshId
  rw [h0]
  exact freshIdGo_notin used base (used.length + 1) 0 ⟨k, by omega, by omega, hnotin⟩

/-! ### `slugify` (build.js lines 167-176) and
`extractHeadingsAndAddIds` (lines 179-201) -/

/-- Model of `\p{L}\p{N}` for the character range exercised here (the
ASCII letters and digits; the claims proved below do not depend on the
extent of the class). -/
def isLetterOrDigitChar (c : Char) : Bool :=
  c.isAlpha || c.isDigit

/-- `replace(/[\s]+/g, "-")`: each maximal whitespace run becomes one
hyphen. The flag records whether the previous character was whitespace. -/
def wsRunsToHyphenGo : Bool → Str → Str
  | _, [] => []
  | inRun, c :: rest =>
    if jsWs c then
      (if inRun then wsRunsToHyphenGo true rest else '-' :: wsRunsToHyphenGo true rest)
    else c :: wsRunsToHyphenGo false rest

/-- Collapse each run of hyphens to a single hyphen (the `-+` to `-`
replacement). -/
def hyphenCollapseGo : Bool → Str → Str
  | _, [] => []
  | prevH, c :: rest =>
    if c == '-' then
      (if prevH then hyphenCollapseGo true rest else '-' :: hyphenCollapseGo true rest)
    else c :: hyphenCollapseGo false rest

/-- `replace(/^-|-$/g, "")`: one leading and one trailing hyphen removed. -/
def stripEdgeHyphens (s : Str) : Str :=
  let s1 := match s with
    | '-' :: rest => rest
    | _ => s
  if s1.getLastD ' ' == '-' then s1.dropLast else s1

/-- Model of `slugify` (lines 167-176). -/
def slugify (text : Str) : Str :=
  let s := stripEdgeHyphens (hyphenCollapseGo false
    (List.filter (fun c => isLetterOrDigitChar c || c == '-')
      (wsRunsToHyphenGo false ((trimStr text).map Char.toLower))))
  if s.isEmpty then "heading".data else s

/-- Removal of inner markup: `inner.replace(/<[^>]+>/g, "")` (line 185). -/
def stripTagsF : Nat → Str → Str
  | 0, s => s
  | Nat.succ _, [] => []
  | Nat.succ f, '<' :: rest =>
    (match takeUntil '>' rest with
     | some br => if br.1.isEmpty then '<' :: stripTagsF f rest else stripTagsF f br.2
     | none => '<' :: stripTagsF f rest)
  | Nat.succ f, c :: rest => c :: stripTagsF f rest

def stripTags (s : Str) : Str := stripTagsF s.length s

/-- One `h2`/`h3` element of the rendered HTML, as matched by the
heading regex: level, the attribute text, and the inner HTML. -/
structure Heading where
  level : Nat
  attrs : Str
  inner : Str

structure HeadingEntry where
  level : Nat
  text : Str
  id : Str

/-- The per-match work of `extractHeadingsAndAddIds` over the sequence
of matched headings, carrying the `usedIds` set: returns the rewritten
elements and the headings list. -/
def extractGo (used : List Str) : List Heading → List Str × List HeadingEntry
  | [] => ([], [])
  | h :: hs =>
    let plainText := trimStr (stripTags h.inner)
    let baseId := slugify plainText
    let uniqueId := freshId used baseId
    let rest := extractGo (used ++ [uniqueId]) hs
    (("<h".data ++ (Nat.repr h.level).data ++ " id=\"".data ++ uniqueId ++ "\"".data
        ++ h.attrs ++ ">".data ++ h.inner ++ "</h".data ++ (Nat.repr h.level).data
        ++ ">".data) :: rest.1,
     ⟨h.level, plainText, uniqueId⟩ :: rest.2)

/-- Model of `extractHeadingsAndAddIds` (lines 179-201). -/
def extractHeadingsAndAddIds (hs : List Heading) : List Str × List HeadingEntry :=
  extractGo [] hs

theorem extractGo_ids_nodup (hs : List Heading) :
    ∀ used : List Str,
      ((extractGo used hs).2.map HeadingEntry.id).Nodup ∧
      (∀ x ∈ (extractGo used hs).2.map HeadingEntry.id, x ∉ used) := by
  induction hs with
  | nil => intro used; simp [extractGo]
  | cons h hs ih =>
    intro used
    simp only [extractGo, List.map_cons]
    set u := freshId used (slugify (trimStr (stripTags h.inner))) with hu
    obtain ⟨ihnd, ihnotin⟩ := ih (used ++ [u])
    constructor
    · rw [List.nodup_cons]
      refine ⟨?_, ihnd⟩
      intro hmem
      have := ihnotin u hmem
      simp at this
    · intro x hx
      rw [List.mem_cons] at hx
      rcases hx with rfl | hx
      · exact freshId_notin used _
      · intro hxu
        exact ihnotin x hx (by simp [hxu])

/-- Claim C3: the heading extractor assigns an id to every matched
h2/h3 element, the assigned ids are pairwise distinct within a post, and
base-id collisions are resolved as `foo`, `foo-1`, `foo-2`, …. -/
theorem c3_heading_ids_unique :
    (∀ hs : List Heading,
      ((extractHeadingsAndAddIds hs).2.map HeadingEntry.id).Nodup ∧
      (extractHeadingsAndAddIds hs).2.length = hs.length ∧
      (extractHeadingsAndAddIds hs).1.length = hs.length) ∧
    ((extractHeadingsAndAddIds
        [⟨2, [], "foo".data⟩, ⟨2, [], "foo".data⟩, ⟨2, [], "foo".data⟩]).2.map
          HeadingEntry.id
      = ["foo".data, "foo-1".data, "foo-2".data]) := by
  constructor
  · intro hs
    refine ⟨(extractGo_ids_nodup hs []).1, ?_, ?_⟩
    · unfold extractHeadingsAndAddIds
      generalize ([] : List Str) = used
      induction hs generalizing used with
      | nil => rfl
      | cons h hs ih => simp only [extractGo, List.length_cons, ih]
    · unfold extractHeadingsAndAddIds
      generalize ([] : List Str) = used
      induction hs generalizing used with
      | nil => rfl
      | cons h hs ih => simp only [extractGo, List.length_cons, ih]
  · decide

/-! ### POSIX path canonicalization used by `isSafePath`
(build.js lines 92-103). `path.resolve` on an absolute path and
`path.normalize` on its result are both modelled by `canonAbs`:
split on the separator, drop empty and `.` segments, let `..` pop the
previous segment (clamped at the root), and re-render. -/

def splitSlash (s : Str) : List Str := splitOnP (fun c => c == '/') s

def resolveStep (acc : List Str) (seg : Str) : List Str :=
  if seg = [] || seg = ['.'] then acc
  else if seg = ['.', '.'] then acc.dropLast
  else acc ++ [seg]

def resolveSegs (segs : List Str) : List Str := segs.foldl resolveStep []

def joinSegs : List Str → Str
  | [] => []
  | [s] => s
  | s :: rest => s ++ '/' :: joinSegs rest

def renderAbs (segs : List Str) : Str := '/' :: joinSegs segs

def canonAbs (p : Str) : Str := renderAbs (resolveSegs (splitSlash p))

/-- Model of `isSafePath` (lines 92-103). -/
def isSafePath (basePath targetPath : Str) : Bool :=
  let normalizedBase := canonAbs (canonAbs basePath)
  let normalizedTarget := canonAbs (canonAbs targetPath)
  (normalizedBase ++ ['/']).isPrefixOf normalizedTarget || normalizedTarget == normalizedBase

/-- Node `path.join` of an absolute path with one further part:
concatenation with a separator, then normalization. -/
def pathJoin2 (a b : Str) : Str := canonAbs (a ++ '/' :: b)

/-- A canonical path segment: nonempty, separator-free, not a dot
segment. -/
def NormalSeg (s : Str) : Prop := s ≠ [] ∧ '/' ∉ s ∧ s ≠ ['.'] ∧ s ≠ ['.', '.']

theorem splitOnP_ne_nil (p : Char → Bool) (s : Str) : splitOnP p s ≠ [] := by
  cases s with
  | nil => simp [splitOnP]
  | cons c cs =>
    simp only [splitOnP]
    split
    · simp
    · split <;> simp

theorem mem_splitOnP_no_sep (p : Char → Bool) (s : Str) :
    ∀ x ∈ splitOnP p s, ∀ c ∈ x, ¬p c = true := by
  induction s with
  | nil =>
    intro x hx
    simp [splitOnP] at hx
    subst hx
    intro c hc
    cases hc
  | cons d cs ih =>
    intro x hx c hc
    simp only [splitOnP] at hx
    by_cases hd : p d
    · rw [if_pos hd] at hx
      rcases List.mem_cons.mp hx with rfl | hx
      · cases hc
      · exact ih x hx c hc
    · rw [if_neg hd] at hx
      cases hsp : splitOnP p cs with
      | nil => exact absurd hsp (splitOnP_ne_nil p cs)
      | cons h t =>
        rw [hsp] at hx
        rcases List.mem_cons.mp hx with rfl | hx
        · rcases List.mem_cons.mp hc with rfl | hc
          · simpa using hd
          · exact ih h (hsp ▸ List.mem_cons_self h t) c hc
        · exact ih x (hsp ▸ List.mem_cons_of_mem h hx) c hc

theorem splitOnP_no_sep (p : Char → Bool) (s : Str) (h : ∀ c ∈ s, ¬p c = true) :
    splitOnP p s = [s] := by
  induction s with
  | nil => rfl
  | cons d cs ih =>
    have hd : ¬p d = true := h d (List.mem_cons_self d cs)
    simp only [splitOnP, if_neg hd]
    rw [ih (fun c hc => h c (List.mem_cons_of_mem d hc))]

theorem splitOnP_append_sep (p : Char → Bool) (c : Char) (hc : p c = true) (a b : Str) :
    splitOnP p (a ++ c :: b) = splitOnP p a ++ splitOnP p b := by
  induction a with
  | nil => simp [splitOnP, hc]
  | cons d a' ih =>
    simp only [List.cons_append, splitOnP, List.append_eq]
    by_cases hd : p d
    · rw [if_pos hd, if_pos hd, ih]
      rfl
    · rw [if_neg hd, if_neg hd, ih]
      cases hsp : splitOnP p a' with
      | nil => exact absurd hsp (splitOnP_ne_nil p a')
      | cons h t => simp

theorem splitSlash_joinSegs (segs : List Str) (hne : segs ≠ [])
    (h : ∀ s ∈ segs, ∀ x ∈ s, ¬(x == '/') = true) :
    splitSlash (joinSegs segs) = segs := by
  induction segs with
  | nil => exact absurd rfl hne
  | cons s rest ih =>
    cases rest with
    | nil =>
      exact splitOnP_no_sep _ s (h s (List.mem_cons_self s []))
    | cons s₂ rest₂ =>
      have hj : joinSegs (s :: s₂ :: rest₂) = s ++ '/' :: joinSegs (s₂ :: rest₂) := rfl
      rw [hj]
      unfold splitSlash
      rw [splitOnP_append_sep _ '/' (by decide) s (joinSegs (s₂ :: rest₂))]
      rw [splitOnP_no_sep _ s (h s (List.mem_cons_self s _))]
      have := ih (by simp) (fun t ht => h t (List.mem_cons_of_mem s ht))
      unfold splitSlash at this
      rw [this]
      simp

theorem noslash_of_split (p : Str) : ∀ s ∈ splitSlash p, '/' ∉ s := by
  intro s hs hmem
  have := mem_splitOnP_no_sep (fun c => c == '/') p s hs '/' hmem
  simp at this

theorem foldl_resolveStep_normal (segs : List Str) :
    ∀ acc : List Str, (∀ x ∈ acc, NormalSeg x) → (∀ s ∈ segs, '/' ∉ s) →
      ∀ x ∈ segs.foldl resolveStep acc, NormalSeg x := by
  induction segs with
  | nil => intro acc hacc _ x hx; exact hacc x hx
  | cons s rest ih =>
    intro acc hacc hsegs x hx
    rw [List.foldl_cons] at hx
    refine ih (resolveStep acc s) ?_ (fun t ht => hsegs t (List.mem_cons_of_mem s ht)) x hx
    intro y hy
    unfold resolveStep at hy
    split at hy
    · exact hacc y hy
    · split at hy
      · exact hacc y ((List.dropLast_sublist acc).subset hy)
      · rcases List.mem_append.mp hy with hy | hy
        · exact hacc y hy
        · rw [List.mem_singleton] at hy
          subst hy
          next h1 h2 =>
            simp only [Bool.or_eq_true, decide_eq_true_eq, not_or] at h1
            exact ⟨h1.1, hsegs y (List.mem_cons_self y rest), h1.2, h2⟩

theorem resolveSegs_all_normal (p : Str) : ∀ x ∈ resolveSegs (splitSlash p), NormalSeg x :=
  foldl_resolveStep_normal (splitSlash p) [] (by simp) (noslash_of_split p)

theorem foldl_resolveStep_id (segs : List Str) :
    ∀ acc : List Str, (∀ s ∈ segs, NormalSeg s) →
      segs.foldl resolveStep acc = acc ++ segs := by
  induction segs with
  | nil => intro acc _; simp
  | cons s rest ih =>
    intro acc h
    have hs := h s (List.mem_cons_self s rest)
    obtain ⟨h1, h2, h3, h4⟩ := hs
    rw [List.foldl_cons]
    have hstep : resolveStep acc s = acc ++ [s] := by
      unfold resolveStep
      rw [if_neg (by simp [h1, h3]), if_neg h4]
    rw [hstep, ih (acc ++ [s]) (fun t ht => h t (List.mem_cons_of_mem s ht))]
    simp

theorem resolveSegs_splitSlash_renderAbs (segs : List Str)
    (h : ∀ x ∈ segs, NormalSeg x) :
    resolveSegs (splitSlash (renderAbs segs)) = segs := by
  cases segs with
  | nil => decide
  | cons s rest =>
    have hr : renderAbs (s :: rest) = '/' :: joinSegs (s :: rest) := rfl
    have hsplit : splitSlash ('/' :: joinSegs (s :: rest))
        = [] :: splitSlash (joinSegs (s :: rest)) := by
      simp [splitSlash, splitOnP]
    have hj : splitSlash (joinSegs (s :: rest)) = s :: rest := by
      refine splitSlash_joinSegs (s :: rest) (by simp) ?_
      intro t ht x hx hbeq
      have hslash : x = '/' := by simpa using hbeq
      exact (h t ht).2.1 (hslash ▸ hx)
    rw [hr, hsplit, hj]
    unfold resolveSegs
    rw [List.foldl_cons]
    have hstep : resolveStep [] [] = [] := by decide
    rw [hstep, foldl_resolveStep_id (s :: rest) [] h]
    simp

theorem canonAbs_idem (p : Str) : canonAbs (canonAbs p) = canonAbs p := by
  show canonAbs (renderAbs (resolveSegs (splitSlash p))) = _
  unfold canonAbs
  rw [resolveSegs_splitSlash_renderAbs _ (resolveSegs_all_normal p)]

theorem slashSplit_eq_iff :
    ∀ (s t u v : Str), '/' ∉ s → '/' ∉ t →
      (s ++ '/' :: u = t ++ '/' :: v ↔ s = t ∧ u = v) := by
  intro s
  induction s with
  | nil =>
    intro t u v _ ht
    cases t with
    | nil => simp
    | cons c t' =>
      simp only [List.nil_append, List.cons_append, List.cons.injEq]
      constructor
      · rintro ⟨rfl, -⟩
        exact absurd (List.mem_cons_self '/' t') ht
      · rintro ⟨h, -⟩
        cases h
  | cons a s' ih =>
    intro t u v hs ht
    cases t with
    | nil =>
      simp only [List.cons_append, List.nil_append, List.cons.injEq]
      constructor
      · rintro ⟨rfl, -⟩
        exact absurd (List.mem_cons_self '/' s') hs
      · rintro ⟨h, -⟩
        cases h
    | cons c t' =>
      simp only [List.cons_append, List.cons.injEq]
      rw [ih t' u v (fun hm => hs (List.mem_cons_of_mem a hm))
        (fun hm => ht (List.mem_cons_of_mem c hm))]
      exact and_assoc.symm

theorem slashSplit_prefix_iff :
    ∀ (s t u v : Str), '/' ∉ s → '/' ∉ t →
      ((s ++ '/' :: u) <+: (t ++ '/' :: v) ↔ s = t ∧ u <+: v) := by
  intro s
  induction s with
  | nil =>
    intro t u v _ ht
    cases t with
    | nil => simp
    | cons c t' =>
      simp only [List.nil_append, List.cons_append, List.cons_prefix_cons]
      constructor
      · rintro ⟨rfl, -⟩
        exact absurd (List.mem_cons_self '/' t') ht
      · rintro ⟨h, -⟩
        cases h
  | cons a s' ih =>
    intro t u v hs ht
    cases t with
    | nil =>
      simp only [List.cons_append, List.nil_append, List.cons_prefix_cons]
      constructor
      · rintro ⟨rfl, -⟩
        exact absurd (List.mem_cons_self '/' s') hs
      · rintro ⟨h, -⟩
        cases h
    | cons c t' =>
      simp only [List.cons_append, List.cons_prefix_cons, List.cons.injEq]
      rw [ih t' u v (fun hm => hs (List.mem_cons_of_mem a hm))
        (fun hm => ht (List.mem_cons_of_mem c hm))]
      exact and_assoc.symm

theorem no_prefix_into_noslash {s w t : Str} (ht : '/' ∉ t) : ¬(s ++ '/' :: w) <+: t := by
  rintro ⟨w', hw⟩
  apply ht
  rw [← hw]
  exact List.mem_append_left w'
    (List.mem_append_right s (List.mem_cons_self '/' w))

theorem joinSegs_eq_iff : ∀ (a b : List Str),
    (∀ x ∈ a, NormalSeg x) → (∀ x ∈ b, NormalSeg x) →
    (joinSegs a = joinSegs b ↔ a = b) := by
  intro a
  induction a with
  | nil =>
    intro b _ hb
    cases b with
    | nil => simp
    | cons t bs =>
      cases bs with
      | nil =>
        constructor
        · intro h
          exact absurd h.symm (hb t (List.mem_cons_self t [])).1
        · intro h; cases h
      | cons b2 bs2 =>
        constructor
        · intro h
          have hch : joinSegs (t :: b2 :: bs2) = t ++ '/' :: joinSegs (b2 :: bs2) := rfl
          have hj0 : joinSegs ([] : List Str) = [] := rfl
          rw [hch, hj0] at h
          have hlen := congrArg List.length h
          simp only [List.length_nil, List.length_append, List.length_cons] at hlen
          omega
        · intro h; cases h
  | cons s as ih =>
    intro b ha hb
    cases b with
    | nil =>
      cases as with
      | nil =>
        constructor
        · intro h
          exact absurd h (ha s (List.mem_cons_self s [])).1
        · intro h; cases h
      | cons a2 as2 =>
        constructor
        · intro h
          have hch : joinSegs (s :: a2 :: as2) = s ++ '/' :: joinSegs (a2 :: as2) := rfl
          have hj0 : joinSegs ([] : List Str) = [] := rfl
          rw [hch, hj0] at h
          have hlen := congrArg List.length h
          simp only [List.length_nil, List.length_append, List.length_cons] at hlen
          omega
        · intro h; cases h
    | cons t bs =>
      cases as with
      | nil =>
        cases bs with
        | nil => simp [joinSegs]
        | cons b2 bs2 =>
          constructor
          · intro h
            have hjb : joinSegs (t :: b2 :: bs2) = t ++ '/' :: joinSegs (b2 :: bs2) := rfl
            rw [hjb] at h
            have hmem : '/' ∈ joinSegs [s] := by
              rw [h]
              exact List.mem_append_right t (List.mem_cons_self '/' _)
            exact absurd hmem (ha s (List.mem_cons_self s [])).2.1
          · intro h
            have := congrArg List.length h
            simp at this
      | cons a2 as2 =>
        cases bs with
        | nil =>
          constructor
          · intro h
            have hja : joinSegs (s :: a2 :: as2) = s ++ '/' :: joinSegs (a2 :: as2) := rfl
            rw [hja] at h
            have hmem : '/' ∈ joinSegs [t] := by
              rw [← h]
              exact List.mem_append_right s (List.mem_cons_self '/' _)
            exact absurd hmem (hb t (List.mem_cons_self t [])).2.1
          · intro h
            have := congrArg List.length h
            simp at this
        | cons b2 bs2 =>
          have hja : joinSegs (s :: a2 :: as2) = s ++ '/' :: joinSegs (a2 :: as2) := rfl
          have hjb : joinSegs (t :: b2 :: bs2) = t ++ '/' :: joinSegs (b2 :: bs2) := rfl
          rw [hja, hjb,
            slashSplit_eq_iff s t (joinSegs (a2 :: as2)) (joinSegs (b2 :: bs2))
              (ha s (List.mem_cons_self s _)).2.1 (hb t (List.mem_cons_self t _)).2.1,
            ih (b2 :: bs2) (fun x hx => ha x (List.mem_cons_of_mem s hx))
              (fun x hx => hb x (List.mem_cons_of_mem t hx))]
          simp [List.cons.injEq]

theorem joinSegs_strict_prefix_iff : ∀ (a b : List Str), a ≠ [] →
    (∀ x ∈ a, NormalSeg x) → (∀ x ∈ b, NormalSeg x) →
    ((joinSegs a ++ ['/']) <+: joinSegs b ↔ ∃ r, r ≠ [] ∧ b = a ++ r) := by
  intro a
  induction a with
  | nil => intro b h; exact absurd rfl h
  | cons s as ih =>
    intro b _ ha hb
    cases as with
    | nil =>
      cases b with
      | nil =>
        constructor
        · intro h
          have hj0 : joinSegs ([] : List Str) = [] := rfl
          rw [hj0, List.prefix_nil] at h
          have hlen := congrArg List.length h
          simp only [List.length_append, List.length_cons, List.length_nil] at hlen
          omega
        · rintro ⟨r, hr, habs⟩
          cases habs
      | cons t bs =>
        cases bs with
        | nil =>
          constructor
          · intro h
            have hshape : joinSegs [s] ++ ['/'] = s ++ '/' :: [] := rfl
            rw [hshape] at h
            exact absurd h (no_prefix_into_noslash (hb t (List.mem_cons_self t [])).2.1)
          · rintro ⟨r, hr, habs⟩
            injection habs with h1 h2
            exact absurd h2.symm hr
        | cons b2 bs2 =>
          have hshape : joinSegs [s] ++ ['/'] = s ++ '/' :: [] := rfl
          have hjb : joinSegs (t :: b2 :: bs2) = t ++ '/' :: joinSegs (b2 :: bs2) := rfl
          rw [hshape, hjb,
            slashSplit_prefix_iff s t [] (joinSegs (b2 :: bs2))
              (ha s (List.mem_cons_self s _)).2.1 (hb t (List.mem_cons_self t _)).2.1]
          constructor
          · rintro ⟨rfl, -⟩
            exact ⟨b2 :: bs2, by simp, rfl⟩
          · rintro ⟨r, hr, habs⟩
            injection habs with h1 h2
            exact ⟨h1.symm, by simp⟩
    | cons a2 as2 =>
      cases b with
      | nil =>
        constructor
        · intro h
          have hj0 : joinSegs ([] : List Str) = [] := rfl
          rw [hj0, List.prefix_nil] at h
          have hlen := congrArg List.length h
          simp only [List.length_append, List.length_cons, List.length_nil] at hlen
          omega
        · rintro ⟨r, hr, habs⟩
          cases habs
      | cons t bs =>
        cases bs with
        | nil =>
          constructor
          · intro h
            have hja : joinSegs (s :: a2 :: as2) ++ ['/']
                = s ++ '/' :: (joinSegs (a2 :: as2) ++ ['/']) := by
              simp [joinSegs]
            rw [hja] at h
            exact absurd h (no_prefix_into_noslash (hb t (List.mem_cons_self t [])).2.1)
          · rintro ⟨r, hr, habs⟩
            injection habs with h1 h2
            simp at h2
        | cons b2 bs2 =>
          have hja : joinSegs (s :: a2 :: as2) ++ ['/']
              = s ++ '/' :: (joinSegs (a2 :: as2) ++ ['/']) := by
            simp [joinSegs]
          have hjb : joinSegs (t :: b2 :: bs2) = t ++ '/' :: joinSegs (b2 :: bs2) := rfl
          rw [hja, hjb,
            slashSplit_prefix_iff s t (joinSegs (a2 :: as2) ++ ['/']) (joinSegs (b2 :: bs2))
              (ha s (List.mem_cons_self s _)).2.1 (hb t (List.mem_cons_self t _)).2.1,
            ih (b2 :: bs2) (by simp) (fun x hx => ha x (List.mem_cons_of_mem s hx))
              (fun x hx => hb x (List.mem_cons_of_mem t hx))]
          constructor
          · rintro ⟨rfl, r, hr, hbb⟩
            exact ⟨r, hr, by rw [hbb]; simp⟩
          · rintro ⟨r, hr, habs⟩
            injection habs with h1 h2
            exact ⟨h1.symm, r, hr, h2⟩

theorem resolveSegs_canonAbs (p : Str) :
    resolveSegs (splitSlash (canonAbs p)) = resolveSegs (splitSlash p) :=
  resolveSegs_splitSlash_renderAbs _ (resolveSegs_all_normal p)

theorem resolveSegs_append_single (xs : List Str) (s : Str) (hs : NormalSeg s) :
    resolveSegs (xs ++ [s]) = resolveSegs xs ++ [s] := by
  unfold resolveSegs
  rw [List.foldl_append]
  obtain ⟨h1, -, h3, h4⟩ := hs
  simp only [List.foldl_cons, List.foldl_nil]
  unfold resolveStep
  rw [if_neg (by simp [h1, h3]), if_neg h4]

/-- The characterization of `isSafePath` against resolved segment lists:
true exactly when the resolved target is the resolved base itself or a
strict descendant of it (for a base that does not resolve to the root,
which the build directories never do). -/
theorem isSafePath_iff (base target : Str)
    (hb : resolveSegs (splitSlash base) ≠ []) :
    isSafePath base target = true ↔
      (resolveSegs (splitSlash target) = resolveSegs (splitSlash base) ∨
       ∃ r, r ≠ [] ∧
         resolveSegs (splitSlash target) = resolveSegs (splitSlash base) ++ r) := by
  have hsb := resolveSegs_all_normal base
  have hst := resolveSegs_all_normal target
  have h1 : isSafePath base target
      = ((renderAbs (resolveSegs (splitSlash base)) ++ ['/']).isPrefixOf
          (renderAbs (resolveSegs (splitSlash target)))
        || (renderAbs (resolveSegs (splitSlash target))
            == renderAbs (resolveSegs (splitSlash base)))) := by
    unfold isSafePath
    rw [canonAbs_idem base, canonAbs_idem target]
    rfl
  rw [h1, Bool.or_eq_true, beq_iff_eq]
  have hpre : (renderAbs (resolveSegs (splitSlash base)) ++ ['/']).isPrefixOf
      (renderAbs (resolveSegs (splitSlash target))) = true ↔
      ∃ r, r ≠ [] ∧
        resolveSegs (splitSlash target) = resolveSegs (splitSlash base) ++ r := by
    rw [List.isPrefixOf_iff_prefix]
    have hshape : renderAbs (resolveSegs (splitSlash base)) ++ ['/']
        = '/' :: (joinSegs (resolveSegs (splitSlash base)) ++ ['/']) := rfl
    have hshape2 : renderAbs (resolveSegs (splitSlash target))
        = '/' :: joinSegs (resolveSegs (splitSlash target)) := rfl
    rw [hshape, hshape2, List.cons_prefix_cons]
    simp only [true_and]
    exact joinSegs_strict_prefix_iff _ _ hb hsb hst
  have heq : renderAbs (resolveSegs (splitSlash target))
      = renderAbs (resolveSegs (splitSlash base)) ↔
      resolveSegs (splitSlash target) = resolveSegs (splitSlash base) := by
    unfold renderAbs
    rw [List.cons.injEq]
    simp only [true_and]
    exact joinSegs_eq_iff _ _ hst hsb
  rw [hpre, heq]
  exact or_comm

/-! ### The per-post output-path check of `main` (build.js lines 453-475) -/

/-- `path.join(DIST_DIR, category, slug)` (line 453). -/
def postOutDir (dist category slug : Str) : Str :=
  canonAbs (dist ++ '/' :: category ++ '/' :: slug)

/-- The output-path check and write of `main` (lines 456-475): when
`isSafePath` rejects the output directory the post is skipped (`none`,
with a warning, the loop continuing with the next file); otherwise the
post page is written to `outDir/index.html`. -/
def postWriteTarget (dist category slug : Str) : Option Str :=
  if isSafePath dist (postOutDir dist category slug) then
    some (pathJoin2 (postOutDir dist category slug) "index.html".data)
  else none

theorem indexHtml_normal : NormalSeg "index.html".data := by
  refine ⟨by decide, ?_, by decide, by decide⟩
  decide

theorem writeTarget_segs (dist category slug : Str) :
    resolveSegs (splitSlash (pathJoin2 (postOutDir dist category slug) "index.html".data))
      = resolveSegs (splitSlash (dist ++ '/' :: category ++ '/' :: slug))
        ++ ["index.html".data] := by
  unfold pathJoin2
  rw [resolveSegs_canonAbs]
  unfold postOutDir
  unfold splitSlash
  rw [splitOnP_append_sep _ '/' (by decide)]
  have hih : splitOnP (fun c => c == '/') "index.html".data = ["index.html".data] :=
    splitOnP_no_sep _ _ (by decide)
  rw [hih]
  have := resolveSegs_append_single
    (splitOnP (fun c => c == '/') (canonAbs (dist ++ '/' :: category ++ '/' :: slug)))
    "index.html".data indexHtml_normal
  rw [this]
  have h2 := resolveSegs_canonAbs (dist ++ '/' :: category ++ '/' :: slug)
  unfold splitSlash at h2
  rw [h2]

/-- Claim C5: `isSafePath` accepts exactly when the resolved target is
the resolved base directory itself or a strict descendant of it; when
the output-directory check fails the post is skipped (no write), and
every path actually written is a strict descendant of the output root —
in particular a category segment of `../../etc` is skipped and nothing
is written outside the root. -/
theorem c5_path_containment :
    (∀ base target : Str, resolveSegs (splitSlash base) ≠ [] →
      (isSafePath base target = true ↔
        (resolveSegs (splitSlash target) = resolveSegs (splitSlash base) ∨
         ∃ r, r ≠ [] ∧
           resolveSegs (splitSlash target) = resolveSegs (splitSlash base) ++ r))) ∧
    (∀ dist category slug w : Str, resolveSegs (splitSlash dist) ≠ [] →
      postWriteTarget dist category slug = some w →
      ∃ r, r ≠ [] ∧ resolveSegs (splitSlash w) = resolveSegs (splitSlash dist) ++ r) ∧
    (postWriteTarget "/site/dist".data "../../etc".data "slug".data = none) ∧
    (isSafePath "/site/dist".data "/site/dist/../../etc/slug".data = false) := by
  refine ⟨isSafePath_iff, ?_, by decide, by decide⟩
  intro dist category slug w hdist hw
  unfold postWriteTarget at hw
  split at hw
  case isFalse => exact Option.noConfusion hw
  case isTrue hsafe =>
    have hw' : w = pathJoin2 (postOutDir dist category slug) "index.html".data :=
      (Option.some.inj hw).symm
    subst hw'
    have hcases := (isSafePath_iff dist (postOutDir dist category slug) hdist).mp hsafe
    have houtdir : resolveSegs (splitSlash (postOutDir dist category slug))
        = resolveSegs (splitSlash (dist ++ '/' :: category ++ '/' :: slug)) := by
      unfold postOutDir
      exact resolveSegs_canonAbs _
    rw [houtdir] at hcases
    rw [writeTarget_segs]
    rcases hcases with heq | ⟨r, hr, hdesc⟩
    · exact ⟨["index.html".data], by simp, by rw [heq]⟩
    · exact ⟨r ++ ["index.html".data], by simp, by rw [hdesc, List.append_assoc]⟩

/-- Witness for C5: the base `/site/dist` does not resolve to the root,
and `/site/dist/a` is accepted as a strict descendant. -/
theorem c5_path_containment_witness :
    isSafePath "/site/dist".data "/site/dist/a".data = true :=
  (c5_path_containment.1 "/site/dist".data "/site/dist/a".data (by decide)).mpr
    (Or.inr ⟨["a".data], by decide, by decide⟩)

/-! ### The category set, category pages and sitemap of `main`
(build.js lines 501-502, 549-596, 590-600) -/

/-- The hardcoded navigation category list (lines 39-48). -/
def NAV_CATEGORIES : List Str :=
  ["activities".data, "goals".data, "paper-reviews".data, "posts".data,
   "projects".data, "study-notes".data, "guestbook".data, "certifications".data]

/-- Lines 501-502: discovered categories deduplicated, unioned after the
fixed navigation list. -/
def categoriesOf (posts : List Post) : List Str :=
  dedup (NAV_CATEGORIES ++ dedup (posts.map Post.category))

/-- Model of `escapeHtml` (lines 81-89): the five `replaceAll` passes. -/
def escapeHtml (s : Str) : Str :=
  ((((s.flatMap (fun c => if c == '&' then "&amp;".data else [c])).flatMap
      (fun c => if c == '<' then "&lt;".data else [c])).flatMap
      (fun c => if c == '>' then "&gt;".data else [c])).flatMap
      (fun c => if c == '"' then "&quot;".data else [c])).flatMap
      (fun c => if c == '\'' then "&#39;".data else [c])

/-- One list item of a category listing (lines 566-568). -/
def categoryPostItem (p : Post) : Str :=
  "<li class=\"post\"><a href=\"".data ++ p.permalink ++ "\">".data
    ++ escapeHtml p.date ++ " — ".data ++ escapeHtml p.title ++ "</a></li>".data

def noPostsYet : Str := "<div class=\"muted\">No posts yet.</div>".data

/-- The `list` value of the category page (lines 564-569). -/
def categoryListHtml (posts : List Post) (cat : Str) : Str :=
  let catPosts := posts.filter (fun p => p.category == cat)
  if catPosts.length ≠ 0 then
    "<ul class=\"posts\">\n".data
      ++ List.intercalate "\n".data (catPosts.map categoryPostItem)
      ++ "\n</ul>".data
  else noPostsYet

/-- The `catRecent` fragment of the category page (lines 571-576); the
emitted page substitutes this fragment into the index template (the
template file itself is not part of src/). -/
def categoryRecentHtml (posts : List Post) (cat : Str) : Str :=
  "\n      <div class=\"card\">\n        <h2 style=\"margin:0 0 10px\">".data
    ++ escapeHtml (humanize cat)
    ++ "</h2>\n        ".data
    ++ categoryListHtml posts cat
    ++ "\n      </div>\n    ".data

/-- The category-page loop (lines 549-585): every category in the set
produces a page unless the validator or the path check skips it. -/
def categoryPages (dist : Str) (posts : List Post) : List (Str × Str) :=
  (categoriesOf posts).filterMap (fun cat =>
    if !isValidCategory cat then none
    else if !isSafePath dist (pathJoin2 dist cat) then none
    else some (cat, categoryRecentHtml posts cat))

def siteUrl : Str := "https://blog.by-hahn.com".data

def stripTrailingSlash (s : Str) : Str :=
  if s.getLastD ' ' == '/' then s.dropLast else s

/-- `SITE.url.replace(/\/$/, "") + pathname` (lines 230-232). -/
def fullUrlFromPath (pathname : Str) : Str :=
  stripTrailingSlash siteUrl ++ pathname

/-- The sitemap item list (lines 590-600): the home page, one entry per
category, one entry per post. -/
def sitemapItems (posts : List Post) (nowIso : Str) : List (Str × Option Str) :=
  (fullUrlFromPath "/".data, some nowIso)
    :: ((categoriesOf posts).map (fun cat =>
          (fullUrlFromPath ('/' :: (cat ++ ['/'])), some nowIso))
        ++ sitemapPostItems posts)

theorem mem_categoriesOf (posts : List Post) (c : Str) :
    c ∈ categoriesOf posts ↔ (c ∈ NAV_CATEGORIES ∨ c ∈ posts.map Post.category) := by
  unfold categoriesOf
  rw [mem_dedup, List.mem_append, mem_dedup]

theorem nav_categories_valid : ∀ c ∈ NAV_CATEGORIES, isValidCategory c = true := by
  decide

theorem normalSeg_of_validCategory {c : Str} (h : isValidCategory c = true) :
    NormalSeg c := by
  unfold isValidCategory at h
  simp only [Bool.and_eq_true, decide_eq_true_eq] at h
  obtain ⟨⟨h1, h2⟩, -⟩ := h
  refine ⟨h1, ?_, ?_, ?_⟩
  · intro hm
    have := List.all_eq_true.mp h2 '/' hm
    exact absurd this (by decide)
  · rintro rfl
    have := List.all_eq_true.mp h2 '.' (List.mem_cons_self '.' [])
    exact absurd this (by decide)
  · rintro rfl
    have := List.all_eq_true.mp h2 '.' (List.mem_cons_self '.' ['.'])
    exact absurd this (by decide)

theorem isSafePath_join_seg (dist c : Str)
    (hdist : resolveSegs (splitSlash dist) ≠ []) (hc : NormalSeg c) :
    isSafePath dist (pathJoin2 dist c) = true := by
  rw [isSafePath_iff dist _ hdist]
  right
  refine ⟨[c], by simp, ?_⟩
  unfold pathJoin2
  rw [resolveSegs_canonAbs]
  unfold splitSlash
  rw [splitOnP_append_sep _ '/' (by decide)]
  have hcs : splitOnP (fun ch => ch == '/') c = [c] := by
    refine splitOnP_no_sep _ c ?_
    intro x hx hbeq
    exact hc.2.1 ((by simpa using hbeq : x = '/') ▸ hx)
  rw [hcs]
  exact resolveSegs_append_single _ c hc

theorem categoryPages_fst_aux (dist : Str) (posts : List Post)
    (hdist : resolveSegs (splitSlash dist) ≠ []) :
    ∀ l : List Str, (∀ c ∈ l, isValidCategory c = true) →
      ((l.filterMap (fun cat =>
        if !isValidCategory cat then none
        else if !isSafePath dist (pathJoin2 dist cat) then none
        else some (cat, categoryRecentHtml posts cat))).map Prod.fst) = l := by
  intro l
  induction l with
  | nil => intro _; rfl
  | cons c rest ih =>
    intro h
    have hc := h c (List.mem_cons_self c rest)
    have hsafe := isSafePath_join_seg dist c hdist (normalSeg_of_validCategory hc)
    rw [List.filterMap_cons]
    simp only [hc, hsafe, Bool.not_true, if_false, Bool.false_eq_true]
    rw [List.map_cons, ih (fun x hx => h x (List.mem_cons_of_mem c hx))]

theorem hasSub_eq_true_iff (t : Str) : ∀ s : Str, (hasSub t s = true ↔ t <:+: s) := by
  intro s
  induction s with
  | nil =>
    simp only [hasSub, List.infix_nil, decide_eq_true_eq]
  | cons c s ih =>
    simp only [hasSub, Bool.or_eq_true, List.isPrefixOf_iff_prefix, ih,
      List.infix_cons_iff]

/-- Claim C6: the category set is the union of the fixed navigation list
and the categories observed among accepted posts; every category in the
set — also one with zero posts — yields a generated category page, whose
body states that no posts exist when the category is empty, and a
corresponding sitemap entry. -/
theorem c6_category_pages (dist : Str) (posts : List Post) (nowIso : Str)
    (hdist : resolveSegs (splitSlash dist) ≠ [])
    (hvalid : ∀ p ∈ posts, isValidCategory p.category = true) :
    (∀ c, c ∈ categoriesOf posts ↔ (c ∈ NAV_CATEGORIES ∨ c ∈ posts.map Post.category)) ∧
    ((categoryPages dist posts).map Prod.fst = categoriesOf posts) ∧
    (∀ c ∈ categoriesOf posts, posts.filter (fun p => p.category == c) = [] →
      hasSub "No posts yet.".data (categoryRecentHtml posts c) = true) ∧
    (∀ c ∈ categoriesOf posts,
      (fullUrlFromPath ('/' :: (c ++ ['/'])), some nowIso) ∈ sitemapItems posts nowIso) := by
  refine ⟨mem_categoriesOf posts, ?_, ?_, ?_⟩
  · unfold categoryPages
    refine categoryPages_fst_aux dist posts hdist _ ?_
    intro c hc
    rcases (mem_categoriesOf posts c).mp hc with hnav | hobs
    · exact nav_categories_valid c hnav
    · obtain ⟨p, hp, rfl⟩ := List.mem_map.mp hobs
      exact hvalid p hp
  · intro c _ hempty
    rw [hasSub_eq_true_iff]
    have hlist : categoryListHtml posts c = noPostsYet := by
      unfold categoryListHtml
      rw [hempty]
      simp
    have hmarker : "No posts yet.".data <:+: noPostsYet := by
      rw [← hasSub_eq_true_iff]
      decide
    unfold categoryRecentHtml
    rw [hlist]
    refine hmarker.trans ?_
    have h1 := List.infix_append
      ("\n      <div class=\"card\">\n        <h2 style=\"margin:0 0 10px\">".data
        ++ escapeHtml (humanize c) ++ "</h2>\n        ".data)
      noPostsYet
      "\n      </div>\n    ".data
    simpa [List.append_assoc] using h1
  · intro c hc
    unfold sitemapItems
    refine List.mem_cons_of_mem _ (List.mem_append_left _ ?_)
    exact List.mem_map.mpr ⟨c, hc, rfl⟩

/-- Witness for C6: with no posts at all, the page list still covers the
whole (navigation) category set. -/
theorem c6_category_pages_witness :
    (categoryPages "/site/dist".data []).map Prod.fst = categoriesOf [] :=
  (c6_category_pages "/site/dist".data [] "now".data (by decide)
    (fun p hp => absurd hp (List.not_mem_nil p))).2.1
